import Mathlib

/-!
Verification development for the quickrest REST-client builder
(src/unnamed/part_004, first revision, lines 1-378; src/src/index.js is an
earlier revision of the same module).

The JavaScript module is shallowly embedded: JS objects used as string-keyed
maps become insertion-ordered association lists, the resource tree built by
place/normalize becomes an inductive type, and the route-accessor closures
produced by build/loop become explicit route-computation functions.  Each
definition is a direct transcription of the corresponding source function.
-/

namespace Quickrest

/-- JS objects used as maps, modelled as insertion-ordered association lists
(property insertion appends; assignment to an existing key keeps its
position). -/
abbrev Smap := List (String × String)

/-- JS property read: first binding of the key wins (association lists built
from JS objects never hold duplicate keys, so this is exact). -/
def jsLookup : List (String × α) → String → Option α
  | [], _ => none
  | (k0, v0) :: rest, k => if k0 = k then some v0 else jsLookup rest k

/-- JS property write `m[k] = v`: update in place when the key exists
(keeping its position), append otherwise. -/
def jsSet : List (String × α) → String → α → List (String × α)
  | [], k, v => [(k, v)]
  | (k0, v0) :: rest, k, v =>
    if k0 = k then (k0, v) :: rest else (k0, v0) :: jsSet rest k v

/-- The property keys of a JS object, in enumeration order. -/
def keysOf (m : List (String × α)) : List String := m.map Prod.fst

/-- Boolean no-duplicate-keys check. -/
def nodupB : List String → Bool
  | [] => true
  | k :: rest => (!rest.contains k) && nodupB rest

/-- A node value in the merged resource tree built by place/normalize
(part_004 lines 297-340): the numeric sentinel `1` marks a leaf, and an
object maps child segment names onward. -/
inductive RVal where
  | leaf : RVal
  | internal (children : List (String × RVal)) : RVal

/-- The resource tree: a JS object mapping segment names to node values. -/
abbrev Tree := List (String × RVal)

mutual
/-- Well-formedness of a node value: every internal node has distinct child
keys (automatic for JS objects, which cannot hold duplicate properties). -/
def wfV : RVal → Bool
  | .leaf => true
  | .internal cs => nodupB (keysOf cs) && wfC cs

/-- Well-formedness of all values of a child list. -/
def wfC : List (String × RVal) → Bool
  | [] => true
  | (_, v) :: rest => wfV v && wfC rest
end

/-- Well-formedness of a tree: distinct keys at this level and, recursively,
at every deeper level. -/
def treeWfB (t : Tree) : Bool := nodupB (keysOf t) && wfC t

/-- Transcription of `place` (part_004 lines 306-324).  JS array
destructuring `const [head, ...rest] = paths` of an EMPTY array yields
`head = undefined`, and a property access with an undefined key stringifies
it, so an empty path reads and writes the property key "undefined"; the
first two equations reflect that.  When descending (`rest.length` truthy),
an absent node or the leaf sentinel is replaced by a fresh `{}` before
recursing, which is the in-place leaf-to-internal promotion. -/
def place (map : Tree) : List String → Tree
  | [] =>
    match jsLookup map "undefined" with
    | none => jsSet map "undefined" .leaf
    | some _ => map
  | [h] =>
    match jsLookup map h with
    | none => jsSet map h .leaf
    | some _ => map
  | h :: b :: t =>
    let node : Tree :=
      match jsLookup map h with
      | some (.internal cs) => cs
      | _ => []
    jsSet map h (.internal (place node (b :: t)))

/-- Transcription of `normalize` (part_004 lines 333-340): fold every path
into one shared tree starting from the empty object. -/
def normalize (ls : List (List String)) : Tree := ls.foldl place []

/-- Insert one path into a list already sorted by descending length, after
any path of greater-or-equal length (stable). -/
def sortIns (x : List String) : List (List String) → List (List String)
  | [] => [x]
  | y :: ys => if x.length ≥ y.length then x :: y :: ys else y :: sortIns x ys

/-- The stable sort `all.sort((ls, xs) => -(ls.length - xs.length))` of
part_004 line 367: longer paths first, ties keeping declaration order
(ECMAScript Array.prototype.sort is stable, and for a total preorder
comparator every stable sort produces the same list). -/
def sortDesc : List (List String) → List (List String)
  | [] => []
  | x :: xs => sortIns x (sortDesc xs)

/-- A per-resource configuration record (README: an endpoint object with a
`resource` path and optional `versions` and `createMethod` fields). -/
structure EndpointConfig where
  resource : String
  versions : List String := []
  createMethod : Option String := none

/-- An endpoint declaration: a plain slash-delimited string, or a
configuration record (`isObject` in buildResources distinguishes the two). -/
inductive Endpoint where
  | simple (path : String) : Endpoint
  | configured (cfg : EndpointConfig) : Endpoint

/-- Character-level splitter behind the JS `str.split('/')`: cut at every
separator, keeping empty pieces (so an empty string gives one empty piece
and a lone separator gives two). -/
def splitSlashAux : List Char → List Char → List (List Char)
  | [], cur => [cur.reverse]
  | c :: rest, cur =>
    if c = '/' then cur.reverse :: splitSlashAux rest []
    else splitSlashAux rest (c :: cur)

/-- `resource.resource.split('/')` of part_004 line 154: configured paths
are split WITHOUT compacting. -/
def splitRaw (s : String) : List String :=
  (splitSlashAux s.data []).map String.mk

/-- `compact(resource.split('/'))` of part_004 line 133: split on the sole
separator and drop empty (falsy) segments. -/
def splitClean (s : String) : List String := (splitRaw s).filter (· ≠ "")

/-- Transcription of `buildResources` (part_004 lines 118-162), returning
(simpleResources, eps).  For a simple declaration the cleaned path is pushed
to simpleResources followed by one copy per common version prefix with the
prefix unshifted, and the cleaned path is also its eps entry; a configured
declaration contributes only its raw split to eps (its config, attached as a
non-index property of the JS array, is carried nowhere the later pipeline
reads: normalize/place only read the array elements, and the `versions`
identity map returned third is never destructured by module.exports). -/
def buildResources : List Endpoint → List String → List (List String) × List (List String)
  | [], _ => ([], [])
  | .simple p :: rest, cvs =>
    (splitClean p :: cvs.map (fun cv => cv :: splitClean p) ++ (buildResources rest cvs).1,
      splitClean p :: (buildResources rest cvs).2)
  | .configured c :: rest, cvs =>
    ((buildResources rest cvs).1, splitRaw c.resource :: (buildResources rest cvs).2)

/-- The segment sequences a single declaration contributes to
simpleResources: a simple path contributes its cleaned form followed by one
version-prefixed copy per common version; a configured declaration
contributes none. -/
def simpleReplicas (cvs : List String) : Endpoint → List (List String)
  | .simple p => splitClean p :: cvs.map (fun cv => cv :: splitClean p)
  | .configured _ => []

/-- The sorted path list handed to normalize by module.exports (part_004
lines 342-377): eps with empty arrays filtered out, concatenated with
simpleResources (NOT filtered), then stably sorted longest-first.  The
`versions` config value is normalized by `compact([].concat(versions))`,
i.e. empty strings dropped. -/
def quickrestAll (endpoints : List Endpoint) (versions : List String) : List (List String) :=
  sortDesc (((buildResources endpoints (versions.filter (· ≠ ""))).2).filter (· ≠ []) ++
    (buildResources endpoints (versions.filter (· ≠ ""))).1)

/-- The merged resource tree of the built client:
`normalize(all)` at part_004 line 377. -/
def quickrestTree (endpoints : List Endpoint) (versions : List String) : Tree :=
  normalize (quickrestAll endpoints versions)

/-- The JS `str.trim()`: whitespace stripped from both ends (inputs here are
ASCII, where JS and Lean agree on what whitespace is). -/
def jsTrim (s : String) : String :=
  String.mk (((s.data.dropWhile Char.isWhitespace).reverse.dropWhile
    Char.isWhitespace).reverse)

/-- The JS `root.endsWith('/')`: the last character of the RAW (untrimmed)
string is a separator. -/
def endsWithSep (s : String) : Bool := s.data.getLast? == some '/'

/-- Transcription of `cleanroot` (part_004 lines 169-181): if the raw root
does not end with a separator it is merely trimmed; otherwise the trimmed
root is reversed, leading separators dropped, and reversed back. -/
def cleanroot (root : String) : String :=
  if !(endsWithSep root) then jsTrim root
  else String.mk ((((jsTrim root).data).reverse.dropWhile (fun c => c = '/')).reverse)

/-- One step of fluent navigation through the compiled hierarchy built by
`build`/`loop` (part_004 lines 198-258): either invoking a resource function
with an identifier (`users(9000)`), or accessing it as a static property for
its collection-level route (`posts` in `users(9000).posts.create(...)`). -/
inductive Step where
  | inst (name id : String) : Step
  | coll (name : String) : Step

/-- The segment name a step navigates through. -/
def Step.name : Step → String
  | .inst n _ => n
  | .coll n => n

/-- Denotation of the route-accessor closures of build/loop.  `parent` is the
route of the object the resource function was attached to: `none` for the
top-level accumulator (a bare `function () {}` with no `_route`, part_004
line 198), `some r` otherwise.  An instance route (`out._route`, lines
217-224) appends `/name/id`; a collection route (`fn._route`, lines 234-240)
appends `/name`; with no parent accessor both start from `cleanroot(conf.root)`. -/
def stepRoute (confRoot : String) (parent : Option String) : Step → String
  | .inst name id =>
    match parent with
    | none => cleanroot confRoot ++ "/" ++ name ++ "/" ++ id
    | some r => r ++ "/" ++ name ++ "/" ++ id
  | .coll name =>
    match parent with
    | none => cleanroot confRoot ++ "/" ++ name
    | some r => r ++ "/" ++ name

/-- The route reported by the final node of a navigation chain, threading
each step's route as the next step's parent (in fluent navigation the
receiver of each access is exactly the object the accessed function was
attached to, so `self._route()`/`accum._route()` agree with this fold). -/
def navRoute (confRoot : String) (parent : Option String) : List Step → Option String
  | [] => parent
  | s :: rest => navRoute confRoot (some (stepRoute confRoot parent s)) rest

/-- The URL fragment a single step contributes. -/
def stepFrag : Step → String
  | .inst n i => "/" ++ n ++ "/" ++ i
  | .coll n => "/" ++ n

/-- Concatenation of the fragments of a chain, in order. -/
def fragsConcat : List Step → String
  | [] => ""
  | s :: rest => stepFrag s ++ fragsConcat rest

/-- Whether a navigation chain exists in the compiled hierarchy built from a
tree: build/loop creates one resource function per key, and attaches child
functions (both to the function itself, line 246, and to each identifier
instance, line 229) only when the node value is not the leaf sentinel
(`v !== 1`, line 244). -/
def chainValidB (t : Tree) : List Step → Bool
  | [] => true
  | s :: rest =>
    match jsLookup t s.name with
    | none => false
    | some .leaf => rest.isEmpty
    | some (.internal cs) => chainValidB cs rest

/-- Whether a slash-path (as a segment list) is present in the merged tree,
descending through internal nodes. -/
def pathInB (t : Tree) : List String → Bool
  | [] => true
  | h :: rest =>
    match jsLookup t h with
    | none => false
    | some .leaf => rest.isEmpty
    | some (.internal cs) => pathInB cs rest

/-- The `altMethodNames` configuration (part_004 lines 75-76). -/
structure AltMethodNames where
  get : Option String := none
  create : Option String := none
  update : Option String := none
  del : Option String := none
  list : Option String := none
  patch : Option String := none

/-- Key list of a JS object literal with possibly repeated computed keys:
a repeated key keeps its first position (its value is the last one written,
which matters only for the two del-slots whose values coincide). -/
def jsObjKeys : List String → List String
  | [] => []
  | k :: rest => k :: (jsObjKeys rest).filter (· ≠ k)

/-- The property keys of the object returned by `proto` (part_004 lines
80-107), in literal order: create, patch, del, delete, get, list, update,
getUrl, each renamable through altMethodNames. -/
def protoKeys (a : AltMethodNames) : List String :=
  jsObjKeys [a.create.getD "create", a.patch.getD "patch",
    a.del.getD "del", a.del.getD "delete", a.get.getD "get",
    a.list.getD "list", a.update.getD "update", "getUrl"]

/-- The JS property read `resource.props` inside proto's create verb, where
`resource` is the segment-name STRING handed to proto by build/loop
(part_004 lines 225 and 242): a string primitive has no `props` property,
so the read yields undefined, and with it any `createMethod` beneath it. -/
def stringPropsCreateMethod (resource : String) : Option String := none

/-- Transcription of part_004 lines 82-83:
`resource.props && resource.props.createMethod || 'post'`. -/
def createMethodOf (resource : String) : String :=
  match stringPropsCreateMethod resource with
  | some m => m
  | none => "post"

/-- A modification object a beforeEach hook may produce: any of headers,
properties, query (absent parts behave as empty objects, part_004
lines 28-30). -/
structure Mod where
  headers : Smap := []
  properties : Smap := []
  query : Smap := []
deriving DecidableEq

/-- `Object.assign({}, a, b)`: keys of `a` in order with `b`'s value
winning where both define a key, then keys only in `b`, in order. -/
def assignMap (a b : Smap) : Smap :=
  (a.map (fun kv => (kv.1, (jsLookup b kv.1).getD kv.2))) ++
    b.filter (fun kv => (jsLookup a kv.1).isNone)

/-- The observable actions of one run of a configured beforeEach hook:
the value it returns synchronously (`none` = undefined), and the
(error, modification) pair it passes to its completion callback, when it
invokes it. -/
structure HookRun where
  syncRet : Option Mod := none
  cbCall : Option (Option String × Mod) := none

/-- One invocation of the abstract transport `request` (part_004 line 32),
recording the merged arguments and whether a completion callback was passed
through as `finish`. -/
structure TCall where
  route : String
  method : String
  properties : Smap
  query : Smap
  headers : Smap
  hasFinish : Bool
deriving DecidableEq

/-- What the verb function returns to its caller.  `undef` is the bare
`return` of part_004 line 59; `promiseWrap` the `new opts.promise(...)` of
lines 38-40; `transportReturn` the value of `processed({}, cb)` (line 43,
whatever the abstract request returns); `promiseThen` the chain
`opts.promise.resolve(out).then(processed)` of lines 62-63.  `rejectedWith`
is produced by NO code path; it exists only so the spec's asserted
behavior (a promise rejecting with the hook's error) can be stated. -/
inductive VerbReturn where
  | undef : VerbReturn
  | promiseWrap : VerbReturn
  | transportReturn : VerbReturn
  | promiseThen (m : Mod) : VerbReturn
  | rejectedWith (e : String) : VerbReturn
deriving DecidableEq

/-- The observable outcome of one verb invocation. -/
structure VerbResult where
  transport : List TCall
  cbErrs : List String
  ret : VerbReturn

/-- `processed(mod, finish)` (part_004 lines 27-33): call the transport with
the hook's modification shallow-merged over the original headers,
properties and query. -/
def processedCall (route method : String) (properties query headers : Smap)
    (m : Mod) (hasFinish : Bool) : TCall :=
  { route := route, method := method,
    properties := assignMap properties m.properties,
    query := assignMap query m.query,
    headers := assignMap headers m.headers,
    hasFinish := hasFinish }

/-- Transcription of the function returned by `verbFactory` (part_004 lines
25-65).  `cbTruthy` is the truthiness of the `cb` parameter at the factory
level.  With no hook configured: no cb means wrapping one transport call in
a new promise, otherwise the transport's own return is forwarded.  With a
hook: `spy` (lines 46-53) forwards a hook error to `cb` WITHOUT calling the
transport, and otherwise runs `processed(mod, cb)`; then, if the hook
returned undefined the verb returns undefined (lines 58-60), else the
returned value is resolved and piped through `processed` with NO finish
callback (lines 62-63). -/
def verbFactoryRun (beforeEach : Option HookRun) (route method : String)
    (properties query headers : Smap) (cbTruthy : Bool) : VerbResult :=
  match beforeEach with
  | none =>
    if !cbTruthy then
      { transport := [processedCall route method properties query headers {} false],
        cbErrs := [], ret := .promiseWrap }
    else
      { transport := [processedCall route method properties query headers {} true],
        cbErrs := [], ret := .transportReturn }
  | some hook =>
    let spyTransport : List TCall :=
      match hook.cbCall with
      | some (none, m) => [processedCall route method properties query headers m true]
      | _ => []
    let spyErrs : List String :=
      match hook.cbCall with
      | some (some e, _) => [e]
      | _ => []
    match hook.syncRet with
    | none => { transport := spyTransport, cbErrs := spyErrs, ret := .undef }
    | some m =>
      { transport :=
          spyTransport ++ [processedCall route method properties query headers m false],
        cbErrs := spyErrs, ret := .promiseThen m }

/-- A verb method of `proto` (part_004 lines 80-107): every verb declares
`cb = noop`, so the factory-level `cb` is ALWAYS truthy, whether or not the
caller supplied a callback.  `callerCb` records whether the caller did. -/
def verbRun (beforeEach : Option HookRun) (route method : String)
    (properties query headers : Smap) (callerCb : Bool) : VerbResult :=
  verbFactoryRun beforeEach route method properties query headers true

/-- The error arguments that reach the CALLER: the effective callback is the
caller's when one was supplied, and the internal discarding `noop`
otherwise. -/
def deliveredToCaller (r : VerbResult) (callerCb : Bool) : List String :=
  if callerCb then r.cbErrs else []

/-- An identifier-bound node instance as observed through its route
accessor. -/
structure NodeInstance where
  route : String
deriving DecidableEq

/-- The two mutable fields of the object a resource function is invoked on
that `fn` touches (part_004 lines 207-232): `_out` is READ at line 210 and
assigned nowhere in the module; `out` is WRITTEN at line 216 on every
invocation that builds an instance. -/
structure RecvState where
  uout : Option NodeInstance := none
  out : Option NodeInstance := none
deriving DecidableEq

/-- Transcription of the state effects of `fn` (part_004 lines 207-232):
if `this._out` is set return it unchanged; otherwise build a fresh instance
whose route accessor closes over the identifier and the parent accessor,
cache it in `this.out`, and return it. -/
def invokeFn (confRoot : String) (parent : Option String) (name : String)
    (st : RecvState) (id : String) : NodeInstance × RecvState :=
  match st.uout with
  | some o => (o, st)
  | none =>
    let inst : NodeInstance := { route := stepRoute confRoot parent (.inst name id) }
    (inst, { st with out := some inst })

theorem jsLookup_jsSet_self (m : List (String × α)) (k : String) (v : α) :
    jsLookup (jsSet m k v) k = some v := by
  induction m with
  | nil => simp [jsSet, jsLookup]
  | cons kv rest ih =>
    by_cases h : kv.1 = k
    · simp [jsSet, h, jsLookup]
    · simp [jsSet, h, jsLookup, ih]

theorem jsLookup_jsSet_ne (m : List (String × α)) (k k0 : String) (v : α)
    (h : k ≠ k0) : jsLookup (jsSet m k v) k0 = jsLookup m k0 := by
  induction m with
  | nil => simp [jsSet, jsLookup, h]
  | cons kv rest ih =>
    by_cases hk : kv.1 = k
    · simp [jsSet, hk, jsLookup, h]
    · by_cases hk0 : kv.1 = k0 <;>
        simp [jsSet, hk, jsLookup, hk0, Ne.symm h, ih]

theorem keysOf_jsSet_found (m : List (String × α)) (k : String) (v w : α)
    (h : jsLookup m k = some w) : keysOf (jsSet m k v) = keysOf m := by
  induction m with
  | nil => simp [jsLookup] at h
  | cons kv rest ih =>
    by_cases hk : kv.1 = k
    · simp [jsSet, hk, keysOf]
    · simp [jsLookup, hk] at h
      simp [jsSet, hk, keysOf] at ih ⊢
      exact ih h

theorem keysOf_jsSet_new (m : List (String × α)) (k : String) (v : α)
    (h : jsLookup m k = none) : keysOf (jsSet m k v) = keysOf m ++ [k] := by
  induction m with
  | nil => simp [jsSet, keysOf]
  | cons kv rest ih =>
    by_cases hk : kv.1 = k
    · simp [jsLookup, hk] at h
    · simp [jsLookup, hk] at h
      simp [jsSet, hk, keysOf] at ih ⊢
      exact ih h

theorem not_mem_keys_of_lookup_none (m : List (String × α)) (k : String)
    (h : jsLookup m k = none) : k ∉ keysOf m := by
  induction m with
  | nil => simp [keysOf]
  | cons kv rest ih =>
    by_cases hk : kv.1 = k
    · simp [jsLookup, hk] at h
    · simp [jsLookup, hk] at h
      simp [keysOf] at ih ⊢
      exact ⟨fun he => hk he.symm, ih h⟩

theorem nodupB_iff (ks : List String) : nodupB ks = true ↔ ks.Nodup := by
  induction ks with
  | nil => simp [nodupB]
  | cons k rest ih =>
    rw [nodupB, Bool.and_eq_true, List.nodup_cons, ih]
    have hc : rest.contains k = true ↔ k ∈ rest := List.elem_iff
    constructor
    · rintro ⟨h1, h2⟩
      refine ⟨fun hm => ?_, h2⟩
      rw [← hc] at hm
      rw [hm] at h1
      simp at h1
    · rintro ⟨h1, h2⟩
      refine ⟨?_, h2⟩
      cases hcb : rest.contains k with
      | false => simp
      | true => exact absurd (hc.mp hcb) h1

theorem nodupB_keysOf_jsSet (m : List (String × α)) (k : String) (v : α)
    (h : nodupB (keysOf m) = true) : nodupB (keysOf (jsSet m k v)) = true := by
  cases hl : jsLookup m k with
  | some w => rw [keysOf_jsSet_found m k v w hl]; exact h
  | none =>
    rw [keysOf_jsSet_new m k v hl, nodupB_iff]
    rw [nodupB_iff] at h
    have hk := not_mem_keys_of_lookup_none m k hl
    rw [List.nodup_append]
    refine ⟨h, List.nodup_singleton k, ?_⟩
    intro a ha hak
    rw [List.mem_singleton] at hak
    exact hk (hak ▸ ha)

theorem wfC_nil_eq : wfC ([] : Tree) = true := rfl

theorem wfC_cons_eq (k : String) (v : RVal) (rest : Tree) :
    wfC ((k, v) :: rest) = (wfV v && wfC rest) := rfl

theorem wfC_lookup (m : Tree) (k : String) (v : RVal)
    (hm : wfC m = true) (h : jsLookup m k = some v) : wfV v = true := by
  induction m with
  | nil => simp [jsLookup] at h
  | cons kv rest ih =>
    obtain ⟨k0, v0⟩ := kv
    rw [wfC_cons_eq, Bool.and_eq_true] at hm
    by_cases hk : k0 = k
    · simp [jsLookup, hk] at h
      exact h ▸ hm.1
    · simp only [jsLookup, hk, if_false] at h
      exact ih hm.2 h

theorem wfC_jsSet (m : Tree) (k : String) (v : RVal)
    (hm : wfC m = true) (hv : wfV v = true) : wfC (jsSet m k v) = true := by
  induction m with
  | nil => simp [jsSet, wfC_cons_eq, wfC_nil_eq, hv]
  | cons kv rest ih =>
    obtain ⟨k0, v0⟩ := kv
    rw [wfC_cons_eq, Bool.and_eq_true] at hm
    by_cases hk : k0 = k
    · simp only [jsSet, hk, if_pos]
      rw [wfC_cons_eq]
      simp [hv, hm.2]
    · simp only [jsSet, hk, if_false]
      rw [wfC_cons_eq]
      simp [hm.1, ih hm.2]

theorem treeWfB_jsSet (m : Tree) (k : String) (v : RVal)
    (hm : treeWfB m = true) (hv : wfV v = true) : treeWfB (jsSet m k v) = true := by
  rw [treeWfB] at hm ⊢
  simp only [Bool.and_eq_true] at hm ⊢
  exact ⟨nodupB_keysOf_jsSet m k v hm.1, wfC_jsSet m k v hm.2 hv⟩

theorem wfV_internal_eq (cs : Tree) : wfV (.internal cs) = treeWfB cs := rfl

theorem place_wf : ∀ (p : List String) (m : Tree),
    treeWfB m = true → treeWfB (place m p) = true
  | [], m => by
    intro hm
    rw [place]
    cases hl : jsLookup m "undefined" with
    | none => exact treeWfB_jsSet m _ _ hm rfl
    | some w => exact hm
  | [h], m => by
    intro hm
    rw [place]
    cases hl : jsLookup m h with
    | none => exact treeWfB_jsSet m _ _ hm rfl
    | some w => exact hm
  | h :: b :: t, m => by
    intro hm
    rw [place]
    have hmC : wfC m = true := by
      rw [treeWfB, Bool.and_eq_true] at hm
      exact hm.2
    have hnil : treeWfB ([] : Tree) = true := by decide
    cases hl : jsLookup m h with
    | none =>
      simp only [hl]
      exact treeWfB_jsSet m h _ hm
        (by rw [wfV_internal_eq]; exact place_wf (b :: t) [] hnil)
    | some w =>
      cases w with
      | leaf =>
        simp only [hl]
        exact treeWfB_jsSet m h _ hm
          (by rw [wfV_internal_eq]; exact place_wf (b :: t) [] hnil)
      | internal cs =>
        simp only [hl]
        have hcs : treeWfB cs = true := by
          rw [← wfV_internal_eq]
          exact wfC_lookup m h (.internal cs) hmC hl
        exact treeWfB_jsSet m h _ hm
          (by rw [wfV_internal_eq]; exact place_wf (b :: t) cs hcs)

theorem normalize_wf (ls : List (List String)) : treeWfB (normalize ls) = true := by
  rw [normalize]
  have : ∀ (xs : List (List String)) (t : Tree),
      treeWfB t = true → treeWfB (xs.foldl place t) = true := by
    intro xs
    induction xs with
    | nil => intro t ht; exact ht
    | cons x rest ih => intro t ht; exact ih _ (place_wf x t ht)
  exact this ls [] rfl

theorem pathInB_place_self : ∀ (p : List String) (m : Tree),
    pathInB (place m p) p = true
  | [], _ => by simp [pathInB]
  | [h], m => by
    rw [place]
    cases hl : jsLookup m h with
    | none => simp [pathInB, jsLookup_jsSet_self]
    | some w => cases w <;> simp [pathInB, hl]
  | h :: b :: t, m => by
    rw [place]
    have ih := pathInB_place_self (b :: t)
    simp only [pathInB, jsLookup_jsSet_self]
    exact ih _

theorem pathInB_place_mono : ∀ (p : List String) (m : Tree) (q : List String),
    pathInB m q = true → pathInB (place m p) q = true
  | p, m, [] => by intro hq; simp [pathInB]
  | [], m, k :: qt => by
    intro hq
    rw [place]
    cases hl : jsLookup m "undefined" with
    | some w => exact hq
    | none =>
      by_cases hk : "undefined" = k
      · rw [pathInB, ← hk, hl] at hq
        simp at hq
      · rw [pathInB, jsLookup_jsSet_ne m _ _ _ hk]
        rw [pathInB] at hq
        exact hq
  | [h], m, k :: qt => by
    intro hq
    rw [place]
    cases hl : jsLookup m h with
    | some w => exact hq
    | none =>
      by_cases hk : h = k
      · rw [pathInB, ← hk, hl] at hq
        simp at hq
      · rw [pathInB, jsLookup_jsSet_ne m _ _ _ hk]
        rw [pathInB] at hq
        exact hq
  | h :: b :: t, m, k :: qt => by
    intro hq
    rw [place]
    by_cases hk : h = k
    · subst hk
      rw [pathInB, jsLookup_jsSet_self]
      rw [pathInB] at hq
      cases hl : jsLookup m h with
      | none => rw [hl] at hq; simp at hq
      | some w =>
        rw [hl] at hq
        cases w with
        | leaf =>
          simp at hq
          simp [hq, pathInB]
        | internal cs =>
          simp only [hl]
          exact pathInB_place_mono (b :: t) cs qt hq
    · rw [pathInB, jsLookup_jsSet_ne m _ _ _ hk]
      rw [pathInB] at hq
      exact hq

theorem pathInB_normalize_mem (ls : List (List String)) (x : List String)
    (hx : x ∈ ls) : pathInB (normalize ls) x = true := by
  rw [normalize]
  have : ∀ (xs : List (List String)) (t : Tree),
      (pathInB t x = true ∨ x ∈ xs) → pathInB (xs.foldl place t) x = true := by
    intro xs
    induction xs with
    | nil =>
      intro t ht
      rcases ht with ht | ht
      · exact ht
      · simp at ht
    | cons y rest ih =>
      intro t ht
      rw [List.foldl_cons]
      rcases ht with ht | ht
      · exact ih _ (Or.inl (pathInB_place_mono y t x ht))
      · rcases List.mem_cons.mp ht with he | hm
        · exact ih _ (Or.inl (he ▸ pathInB_place_self y t))
        · exact ih _ (Or.inr hm)
  exact this ls [] (Or.inr hx)

theorem sortIns_perm (x : List String) (ls : List (List String)) :
    List.Perm (sortIns x ls) (x :: ls) := by
  induction ls with
  | nil => simp [sortIns]
  | cons y ys ih =>
    rw [sortIns]
    by_cases h : x.length ≥ y.length
    · simp [h]
    · simp only [h, if_false]
      exact List.Perm.trans (List.Perm.cons y ih) (List.Perm.swap x y ys)

theorem sortDesc_perm (ls : List (List String)) : List.Perm (sortDesc ls) ls := by
  induction ls with
  | nil => simp [sortDesc]
  | cons x xs ih =>
    rw [sortDesc]
    exact List.Perm.trans (sortIns_perm x (sortDesc xs)) (List.Perm.cons x ih)

theorem buildResources_fst (cvs : List String) : ∀ (eps : List Endpoint),
    (buildResources eps cvs).1 = (eps.map (simpleReplicas cvs)).flatten
  | [] => by simp [buildResources]
  | .simple p :: rest => by
    rw [List.map_cons, List.flatten_cons, ← buildResources_fst cvs rest]
    simp [buildResources, simpleReplicas]
  | .configured c :: rest => by
    rw [List.map_cons, List.flatten_cons, ← buildResources_fst cvs rest]
    simp [buildResources, simpleReplicas]

theorem mem_quickrestAll_simple (paths : List String) (versions : List String)
    (p : String) (hp : p ∈ paths) :
    splitClean p ∈ quickrestAll (paths.map Endpoint.simple) versions := by
  rw [quickrestAll]
  apply (sortDesc_perm _).mem_iff.mpr
  apply List.mem_append_right
  rw [buildResources_fst]
  apply List.mem_flatten.mpr
  refine ⟨simpleReplicas (versions.filter (· ≠ "")) (.simple p), ?_, ?_⟩
  · exact List.mem_map_of_mem _ (List.mem_map_of_mem Endpoint.simple hp)
  · simp [simpleReplicas]

theorem string_append_empty (s : String) : s ++ "" = s := by
  cases s with
  | mk data => apply congrArg String.mk; exact List.append_nil data

theorem string_append_assoc (a b c : String) : a ++ b ++ c = a ++ (b ++ c) := by
  cases a with
  | mk da =>
    cases b with
    | mk db =>
      cases c with
      | mk dc => apply congrArg String.mk; exact List.append_assoc da db dc

theorem stepRoute_some_eq (confRoot r : String) (s : Step) :
    stepRoute confRoot (some r) s = r ++ stepFrag s := by
  cases s with
  | inst n i => simp [stepRoute, stepFrag, string_append_assoc]
  | coll n => simp [stepRoute, stepFrag, string_append_assoc]

theorem stepRoute_none_eq (confRoot : String) (s : Step) :
    stepRoute confRoot none s = cleanroot confRoot ++ stepFrag s := by
  cases s with
  | inst n i => simp [stepRoute, stepFrag, string_append_assoc]
  | coll n => simp [stepRoute, stepFrag, string_append_assoc]

theorem navRoute_some_eq (confRoot : String) : ∀ (steps : List Step) (r : String),
    navRoute confRoot (some r) steps = some (r ++ fragsConcat steps)
  | [], r => by simp [navRoute, fragsConcat, string_append_empty]
  | s :: rest, r => by
    rw [navRoute, navRoute_some_eq confRoot rest, stepRoute_some_eq, fragsConcat,
      string_append_assoc]

theorem jsLookup_append (l1 l2 : List (String × α)) (k : String) :
    jsLookup (l1 ++ l2) k =
      match jsLookup l1 k with
      | some v => some v
      | none => jsLookup l2 k := by
  induction l1 with
  | nil => simp [jsLookup]
  | cons kv rest ih =>
    by_cases hk : kv.1 = k
    · simp [jsLookup, hk]
    · simp [jsLookup, hk, ih]

theorem jsLookup_mapValues (m : List (String × α)) (g : String → α → β)
    (k : String) :
    jsLookup (m.map (fun kv => (kv.1, g kv.1 kv.2))) k =
      (jsLookup m k).map (g k) := by
  induction m with
  | nil => simp [jsLookup]
  | cons kv rest ih =>
    by_cases hk : kv.1 = k
    · simp [jsLookup, hk]
    · simp [jsLookup, hk, ih]

theorem jsLookup_filterKey (l : List (String × α)) (p : String → Bool)
    (k : String) :
    jsLookup (l.filter (fun kv => p kv.1)) k =
      if p k then jsLookup l k else none := by
  induction l with
  | nil => simp [jsLookup]
  | cons kv rest ih =>
    by_cases hk : kv.1 = k
    · by_cases hp : p k
      · simp [hk, hp, jsLookup, ih]
      · simp [hk, hp, jsLookup, ih]
    · by_cases hp : p kv.1
      · simp [hp, jsLookup, hk, ih]
      · simp [hp, jsLookup, hk, ih]

theorem jsLookup_assignMap (a b : Smap) (k : String) :
    jsLookup (assignMap a b) k =
      match jsLookup b k with
      | some v => some v
      | none => jsLookup a k := by
  rw [assignMap, jsLookup_append]
  have hmap := jsLookup_mapValues a (fun key v => (jsLookup b key).getD v) k
  have hfil := jsLookup_filterKey b (fun key => (jsLookup a key).isNone) k
  rw [hmap, hfil]
  cases ha : jsLookup a k <;> cases hb : jsLookup b k <;> simp [ha, hb]

theorem string_length_append (a b : String) :
    (a ++ b).length = a.length + b.length := by
  cases a with
  | mk da =>
    cases b with
    | mk db => exact List.length_append da db

/-- Claim C1: for every compiled top-level resource with segment name s and
identifier id the route accessor computes cleanroot(root)/s/id, and every
nested navigation appends one /segment/identifier fragment per instance step
(and /segment per collection access) to its parent's route, in declaration
order; equivalently, the route of any valid chain is cleanroot(root)
followed by the concatenation of its step fragments. -/
theorem claim1_route_roundtrip (endpoints : List Endpoint)
    (versions : List String) (root : String) (s : Step) (rest : List Step)
    (_hvalid : chainValidB (quickrestTree endpoints versions) (s :: rest) = true) :
    navRoute root none (s :: rest) =
      some (cleanroot root ++ fragsConcat (s :: rest)) := by
  rw [navRoute, navRoute_some_eq, stepRoute_none_eq, fragsConcat,
    string_append_assoc]

set_option maxRecDepth 8000 in
/-- Witness for C1: the chain users(9000).posts(3).comments is valid for the
endpoints of the README example and resolves to
root/users/9000/posts/3/comments. -/
theorem claim1_route_roundtrip_witness :
    chainValidB (quickrestTree [.simple "users", .simple "users/posts",
        .simple "users/posts/comments"] [])
      [.inst "users" "9000", .inst "posts" "3", .coll "comments"] = true ∧
    navRoute "https://api.example.com" none
      [.inst "users" "9000", .inst "posts" "3", .coll "comments"] =
      some "https://api.example.com/users/9000/posts/3/comments" := by
  refine ⟨by decide, ?_⟩
  have h := claim1_route_roundtrip
    [.simple "users", .simple "users/posts", .simple "users/posts/comments"]
    [] "https://api.example.com" (.inst "users" "9000")
    [.inst "posts" "3", .coll "comments"] (by decide)
  rw [h]
  decide

/-- Claim C2: for string endpoint declarations, the merged tree has distinct
segment names at every level (so a shared prefix yields exactly one node),
every declared path is reachable in it under that single shared node, and
concretely users/posts with users/comments compile to one users node with
both children. -/
theorem claim2_shared_prefix_merge (paths : List String)
    (versions : List String) (p : String) (hp : p ∈ paths) :
    treeWfB (quickrestTree (paths.map Endpoint.simple) versions) = true ∧
    pathInB (quickrestTree (paths.map Endpoint.simple) versions)
      (splitClean p) = true ∧
    quickrestTree [.simple "users/posts", .simple "users/comments"] [] =
      [("users", .internal [("posts", .leaf), ("comments", .leaf)])] := by
  refine ⟨normalize_wf _, ?_, rfl⟩
  exact pathInB_normalize_mem _ _ (mem_quickrestAll_simple paths versions p hp)

/-- Witness for C2, at the spec's own example input. -/
theorem claim2_shared_prefix_merge_witness :
    ("users/comments" ∈ ["users/posts", "users/comments"]) ∧
    pathInB (quickrestTree
        (["users/posts", "users/comments"].map Endpoint.simple) [])
      (splitClean "users/comments") = true :=
  ⟨by decide, (claim2_shared_prefix_merge ["users/posts", "users/comments"]
    [] "users/comments" (by decide)).2.1⟩

/-- Claim C3: a leaf node through which a later (longer) sequence descends
is promoted in place to an internal node (same key, same position, siblings
kept), and with endpoints users and users/posts (longer merged first by the
sort) the compiled users node is internal, navigable to posts, while the
verb set (create, get, ...) is attached to every node. -/
theorem claim3_leaf_promotion (m : Tree) (h b : String) (t : List String)
    (hleaf : jsLookup m h = some .leaf) :
    (∃ cs, jsLookup (place m (h :: b :: t)) h = some (.internal cs)) ∧
    keysOf (place m (h :: b :: t)) = keysOf m ∧
    quickrestTree [.simple "users", .simple "users/posts"] [] =
      [("users", .internal [("posts", .leaf)])] ∧
    chainValidB (quickrestTree [.simple "users", .simple "users/posts"] [])
      [.coll "users", .coll "posts"] = true ∧
    "create" ∈ protoKeys {} ∧ "get" ∈ protoKeys {} := by
  refine ⟨?_, ?_, rfl, by decide, by decide, by decide⟩
  · rw [place]
    simp only [hleaf]
    exact ⟨place [] (b :: t), jsLookup_jsSet_self m h _⟩
  · rw [place]
    simp only [hleaf]
    exact keysOf_jsSet_found m h _ _ hleaf

/-- Witness for C3: promoting the leaf users in a one-node tree. -/
theorem claim3_leaf_promotion_witness :
    jsLookup [("users", RVal.leaf)] "users" = some RVal.leaf ∧
    (∃ cs, jsLookup (place [("users", RVal.leaf)] ["users", "posts"])
      "users" = some (.internal cs)) :=
  ⟨rfl, (claim3_leaf_promotion [("users", RVal.leaf)] "users" "posts" []
    rfl).1⟩

/-- Counterexample to C4 as stated: a beforeEach hook returns undefined and
signals the error "boom" through its completion callback while the caller
supplied no callback; the verb returns undefined, so no returned promise
rejects with the error. -/
theorem claim4_counterexample :
    ¬ ((verbRun (some { syncRet := none, cbCall := some (some "boom", {}) })
        "https://api.example.com/users" "get" [] [] [] false).ret =
      VerbReturn.rejectedWith "boom") := by
  decide

/-- Claim C4 as amended: when a configured beforeEach hook signals an error
through its completion callback, the transport is never called, the error is
delivered exactly once to the effective callback (the caller's when one was
supplied, the discarding internal noop otherwise, so with no caller callback
the error reaches nobody), and the verb (whose hook returned undefined)
returns undefined rather than a rejecting promise. -/
theorem claim4_hook_error (e : String) (m : Mod) (route method : String)
    (properties query headers : Smap) (callerCb : Bool) :
    (verbRun (some { syncRet := none, cbCall := some (some e, m) })
        route method properties query headers callerCb).transport = [] ∧
    (verbRun (some { syncRet := none, cbCall := some (some e, m) })
        route method properties query headers callerCb).cbErrs = [e] ∧
    (verbRun (some { syncRet := none, cbCall := some (some e, m) })
        route method properties query headers callerCb).ret =
      VerbReturn.undef ∧
    deliveredToCaller (verbRun (some { syncRet := none, cbCall := some (some e, m) })
      route method properties query headers callerCb) callerCb =
      (if callerCb then [e] else []) := by
  refine ⟨rfl, rfl, rfl, ?_⟩
  cases callerCb <;> rfl

/-- Claim C5, evaluated at the failing input: a resource declared through a
configuration record with createMethod put still issues create with method
post — proto reads resource.props on the segment-name string (always
undefined in JS) and the config attached in buildResources never reaches
the compiled tree, which holds only segment names. -/
theorem claim5_create_method_eval :
    createMethodOf "purchases" = "post" ∧
    ("post" : String) ≠ "put" ∧
    keysOf (quickrestTree [.configured { resource := "purchases", createMethod := some "put" }] []) =
      ["purchases"] ∧
    (verbRun none "https://api.example.com/purchases"
        (createMethodOf "purchases") [] [] [] true).transport =
      [processedCall "https://api.example.com/purchases" "post"
        [] [] [] {} true] := by
  exact ⟨rfl, by decide, rfl, rfl⟩

/-- Claim C6, evaluated at the failing input: adding the empty endpoint ""
(or "/") to the list CHANGES the set of top-level resources — the empty
path survives in simpleResources (only eps is filtered) and place, given an
empty path, inserts the stringified-undefined key, yielding a spurious
top-level resource named undefined. -/
theorem claim6_empty_endpoint_eval :
    keysOf (quickrestTree [.simple "users"] []) = ["users"] ∧
    keysOf (quickrestTree [.simple "users", .simple ""] []) =
      ["users", "undefined"] ∧
    keysOf (quickrestTree [.simple "users", .simple "/"] []) =
      ["users", "undefined"] :=
  ⟨rfl, rfl, rfl⟩

/-- Claim C7: every simple declaration is replicated once per declared
common version prefix, each replica getting the prefix prepended, in
addition to the un-prefixed form (and configured declarations are not
replicated); concretely, versions v2 with endpoint users yields both a
top-level users node and a v2 node with a users child, whose routes carry
the distinct prefixes root/users and root/v2/users. -/
theorem claim7_version_replication (endpoints : List Endpoint)
    (cvs : List String) (root : String) :
    (buildResources endpoints cvs).1 =
      (endpoints.map (simpleReplicas cvs)).flatten ∧
    quickrestTree [.simple "users"] ["v2"] =
      [("v2", .internal [("users", .leaf)]), ("users", .leaf)] ∧
    navRoute root none [.coll "users"] =
      some (cleanroot root ++ "/users") ∧
    navRoute root none [.coll "v2", .coll "users"] =
      some (cleanroot root ++ "/v2/users") ∧
    cleanroot root ++ "/users" ≠ cleanroot root ++ "/v2/users" := by
  refine ⟨buildResources_fst cvs endpoints, rfl, ?_, ?_, ?_⟩
  · rw [navRoute, navRoute, stepRoute_none_eq]
    rfl
  · rw [navRoute, navRoute, navRoute, stepRoute_some_eq, stepRoute_none_eq,
      string_append_assoc]
    rfl
  · intro hcontra
    have hlen := congrArg String.length hcontra
    rw [string_length_append, string_length_append] at hlen
    have h6 : ("/users" : String).length = 6 := rfl
    have h9 : ("/v2/users" : String).length = 9 := rfl
    rw [h6, h9] at hlen
    omega

/-- Claim C8: a beforeEach hook that returns undefined makes the verb
return undefined (no promise from the synchronous path); when the hook
later completes with (null, mod), exactly one transport call is made, with
mod's headers, properties and query shallow-merged over the originals and
the effective callback passed through — in particular a hook completing
with an X-Token header yields merged headers whose X-Token is abc. -/
theorem claim8_hook_async_merge (route method : String)
    (properties query headers : Smap) (m : Mod) (callerCb : Bool) :
    (verbRun (some { syncRet := none, cbCall := some (none, m) })
        route method properties query headers callerCb).ret =
      VerbReturn.undef ∧
    (verbRun (some { syncRet := none, cbCall := some (none, m) })
        route method properties query headers callerCb).cbErrs = [] ∧
    (verbRun (some { syncRet := none, cbCall := some (none, m) })
        route method properties query headers callerCb).transport =
      [{ route := route, method := method,
         properties := assignMap properties m.properties,
         query := assignMap query m.query,
         headers := assignMap headers m.headers, hasFinish := true }] ∧
    jsLookup (assignMap headers [("X-Token", "abc")]) "X-Token" =
      some "abc" := by
  refine ⟨rfl, rfl, rfl, ?_⟩
  rw [jsLookup_assignMap]
  simp [jsLookup]

/-- Claim C9, evaluated at the failing input: the three roots of the claim
do collapse to the same separator-free prefix, but cleanroot checks
endsWith before trimming, so the root with a trailing space after its
separator keeps that separator — contradicting both the claim and
cleanroot's own doc comment. -/
theorem claim9_cleanroot_eval :
    cleanroot "https://x" = "https://x" ∧
    cleanroot "https://x/" = "https://x" ∧
    cleanroot "https://x//" = "https://x" ∧
    cleanroot "https://x/ " = "https://x/" ∧
    endsWithSep (cleanroot "https://x/ ") = true := by
  decide

/-- Claim C10: provided the receiver's never-assigned guard field is unset
(as it always is — nothing in the module writes it), invoking a resource
function returns a fresh instance whose route depends only on its own
identifier and the parent accessor; a prior invocation with a different
identifier changes neither the returned instance nor its route, the guard
field stays unset, and the only receiver field written is the instance
cache out. -/
theorem claim10_instance_independence (confRoot : String)
    (parent : Option String) (name : String) (st : RecvState)
    (id1 id2 : String) (hst : st.uout = none) :
    ((invokeFn confRoot parent name st id2).2.uout = none) ∧
    (invokeFn confRoot parent name st id2).1 =
      { route := stepRoute confRoot parent (.inst name id2) } ∧
    (invokeFn confRoot parent name
        ((invokeFn confRoot parent name st id2).2) id1).1 =
      (invokeFn confRoot parent name st id1).1 ∧
    (invokeFn confRoot parent name st id1).1 =
      { route := stepRoute confRoot parent (.inst name id1) } ∧
    (invokeFn confRoot parent name st id2).2 =
      { uout := st.uout, out := some (invokeFn confRoot parent name st id2).1 } := by
  simp [invokeFn, hst]

/-- Witness for C10 at a fresh receiver and the identifiers 1 and 2. -/
theorem claim10_instance_independence_witness :
    RecvState.uout {} = none ∧
    (invokeFn "https://api.example.com" none "users" {} "1").1 =
      { route := stepRoute "https://api.example.com" none
          (.inst "users" "1") } :=
  ⟨rfl, (claim10_instance_independence "https://api.example.com" none
    "users" {} "1" "2" rfl).2.2.2.1⟩

end Quickrest
